import Mathlib

/-!
# Entity-matching engine: embedding and verification

A shallow embedding of the entity-matching engine of the scanner
application (`src/app.js`, plus the two earlier variants in
`src/unnamed/part_000` and `src/unnamed/part_001`), together with proofs
about the embedded definitions.

Modelling conventions.

* JavaScript numbers are idealized as rationals (`ℚ`).  `NaN` is modelled
  as `none` in an `Option ℚ` where it matters (the distance computation).
* `Math.sqrt` is irrational-valued, so the Euclidean distance `dist` of the
  source cannot be a `ℚ → ℚ` function.  The distance computation itself is
  embedded as `distSq` (the sum of squared component differences computed
  by the loop of `dist`, before `Math.sqrt` is applied); `Math.sqrt` maps
  `NaN` to `NaN` and a nonnegative rational to a real number, so `dist`
  produces a numeric (non-error) result exactly when `distSq` does, and
  `Math.sqrt` is strictly monotone on nonnegative arguments, so every
  comparison of distances is mirrored by the comparison of the values here.
* Downstream of `dist`, the matcher (`matchesForDescriptor`) only consumes
  the value `dist(descriptor, s)` for the fixed query `descriptor` and each
  sample `s`.  It is therefore embedded parametrically in a function
  `d : α → ℚ` giving the distance from the fixed descriptor to each sample,
  keeping the loop structure, comparisons and constants of the source
  verbatim.  For one-dimensional embeddings the source's Euclidean distance
  is exactly `fun a b => |a - b|` (`√((a-b)²) = |a-b|`), so every concrete
  assignment of distances used below is realizable by actual embeddings.
* The DOM and `localStorage` plumbing is out of scope (spec §1); the scan
  button handler is embedded from its precondition check onwards, with the
  external detector's output per image given as a list of descriptors.
-/

/-- `Math.round` of JavaScript: round half toward positive infinity. -/
def jsRound (x : ℚ) : ℤ := ⌊x + 1/2⌋

/-- Clamp `x` into `[lo, hi]`, as `Math.max(lo, Math.min(hi, x))`. -/
def clampQ (x lo hi : ℚ) : ℚ := max lo (min hi x)

/-- `BORDERLINE_BAND` of `src/app.js` (line 76): threshold..threshold+band
is the "Possible" tier. -/
def BORDERLINE_BAND : ℚ := 1/10

/-- `MAX_FACES_PER_IMAGE` of `src/app.js` (line 72). -/
def MAX_FACES_PER_IMAGE : ℕ := 30

/-- Embedding of `distanceToConfidence` (`src/app.js` lines 141-145):
`max = thr + BORDERLINE_BAND + 0.25`, then round the clamped linear decay
to a percentage. -/
def distanceToConfidence (d thr : ℚ) : ℤ :=
  let mx := thr + BORDERLINE_BAND + 1/4
  let clamped := max 0 (min 1 (1 - d / mx))
  jsRound (clamped * 100)

/-- Embedding of `distanceToConfidence` of `src/unnamed/part_001`
(lines 640-644): `max = thr + 0.25`, no borderline band in this variant. -/
def distanceToConfidenceV1 (d thr : ℚ) : ℤ :=
  let mx := thr + 1/4
  let clamped := max 0 (min 1 (1 - d / mx))
  jsRound (clamped * 100)

/-- Modelled from the spec (§4.4): `confidence = round(100 * clamp(1 -
distance / (threshold + possibleBand + MARGIN), 0, 1))`. -/
def specConfidence (d thr band margin : ℚ) : ℤ :=
  jsRound (100 * clampQ (1 - d / (thr + band + margin)) 0 1)

/-- The loop of `dist` (`src/app.js` lines 131-138) accumulating the sum of
squared component differences.  The index runs over `a`; reading `b[i]`
past the end of `b` yields `undefined`, and `a[i] - undefined` is `NaN`,
which poisons the running sum: the accumulator is `none` once `NaN`. -/
def distSqLoop : Option ℚ → List ℚ → List ℚ → Option ℚ
  | s, [], _ => s
  | _, _ :: xs, [] => distSqLoop none xs []
  | s, x :: xs, y :: ys => distSqLoop (Option.map (fun acc => acc + (x - y) ^ 2) s) xs ys

/-- Embedding of `dist` (`src/app.js` lines 131-138) up to the final
`Math.sqrt`: the sum `s` of squared differences over the indices of `a`
(`none` = `NaN`).  The source returns `Math.sqrt` of this value, which is a
numeric result exactly when this is `some`. -/
def distSq (a b : List ℚ) : Option ℚ := distSqLoop (some 0) a b

/-- One-dimensional Euclidean distance: for single-component embeddings the
source's `dist a b = √((a-b)²) = |a-b|` is exactly rational. -/
def dist1 (a b : ℚ) : ℚ := |a - b|

/-- An enrolled identity profile (`people` entry
`{id, name, samples: number[][]}`, `src/app.js` line 57).  The sample type
is a parameter: the matcher only consumes samples through the distance to
the fixed query descriptor (see the module docstring). -/
structure Person (α : Type) where
  id : String
  name : String
  samples : List α
deriving DecidableEq

/-- Look up an id in the selection map `scanSelection : {[personId]: boolean}`,
modelled as an association list in property order. -/
def lookupSel (sel : List (String × Bool)) (pid : String) : Option Bool :=
  (sel.find? (fun e => decide (e.1 = pid))).map Prod.snd

/-- Embedding of `selectedPeople` (`src/app.js` lines 117-119): profiles
whose selection flag is not explicitly `false` (absent defaults to true). -/
def selectedPeople {α : Type} (people : List (Person α)) (sel : List (String × Bool)) :
    List (Person α) :=
  people.filter (fun p => decide (¬ lookupSel sel p.id = some false))

/-- Embedding of `syncSelection` (`src/app.js` lines 120-129): first insert
every profile id missing from the selection map with value `true` (checking
against the map as already grown, as the JS loop mutates in place), then
delete every entry whose id no longer names a profile. -/
def syncSelection {α : Type} (people : List (Person α)) (sel : List (String × Bool)) :
    List (String × Bool) :=
  let known := people.map Person.id
  let sel1 := people.foldl
    (fun s p => if s.any (fun e => decide (e.1 = p.id)) then s else s ++ [(p.id, true)]) sel
  sel1.filter (fun e => known.any (fun k => decide (k = e.1)))

/-- A per-identity match record pushed into `hits` / `possibles`
(`src/app.js` lines 201-203). -/
structure MatchItem where
  personId : String
  name : String
  dist : ℚ
  confidence : ℤ
  level : String
deriving DecidableEq

/-- Build the record `{personId, name, dist, confidence, level}` pushed by
`matchesForDescriptor`. -/
def mkItem {α : Type} (p : Person α) (b thr : ℚ) (level : String) : MatchItem :=
  ⟨p.id, p.name, b, distanceToConfidence b thr, level⟩

/-- The per-identity sample loop of `matchesForDescriptor` (`src/app.js`
lines 192-197): running minimum starting from `Infinity` (= `none`), with
the early exit `if (best < 0.20) break`.  `d s` is the distance from the
fixed query descriptor to sample `s`. -/
def bestSampleLoop {α : Type} (d : α → ℚ) : Option ℚ → List α → Option ℚ
  | best, [] => best
  | best, s :: rest =>
    let dd := d s
    let best2 := match best with
      | none => dd
      | some b => if dd < b then dd else b
    if best2 < (1/5 : ℚ) then some best2 else bestSampleLoop d (some best2) rest

/-- The distance the source reports for one identity: the sample loop run
from `best = Infinity`; `none` means `best` stayed `Infinity` and the
identity is skipped by `if (!isFinite(best)) continue`. -/
def bestDistEarly {α : Type} (d : α → ℚ) (samples : List α) : Option ℚ :=
  bestSampleLoop d none samples

/-- Modelled from the spec (§4.3): `bestDistanceToIdentity` is the true
minimum distance from the query to any of the identity's samples, `∞`
(here `none`) when there are none.  This is the reference value the
early-exit scan is compared against. -/
def bestDistanceToIdentity {α : Type} (d : α → ℚ) : List α → Option ℚ
  | [] => none
  | s :: rest => some ((rest.map d).foldl min (d s))

/-- Ordering of match records by reported distance, the comparator
`(a, b) => a.dist - b.dist` of the source. -/
def distLE (x y : MatchItem) : Prop := x.dist ≤ y.dist

instance : DecidableRel distLE := fun x y => inferInstanceAs (Decidable (x.dist ≤ y.dist))

instance : IsTotal MatchItem distLE := ⟨fun a b => le_total a.dist b.dist⟩

instance : IsTrans MatchItem distLE := ⟨fun _ _ _ h1 h2 => le_trans h1 h2⟩

/-- `Array.prototype.sort` with comparator `a.dist - b.dist`: a stable sort
by reported distance, embedded as insertion sort. -/
def sortByDist (l : List MatchItem) : List MatchItem := List.insertionSort distLE l

/-- The `hits` list built by the pool loop of `matchesForDescriptor`
(`src/app.js` lines 191-205): identities whose reported distance is `≤ thr`,
in pool order (the source pushes into `hits` in the same single pass). -/
def hitsFor {α : Type} (d : α → ℚ) (pool : List (Person α)) (thr : ℚ) : List MatchItem :=
  pool.filterMap (fun p =>
    (bestDistEarly d p.samples).bind (fun b =>
      if b ≤ thr then some (mkItem p b thr "flagged") else none))

/-- The `possibles` list built by the same loop: identities whose reported
distance lies in `(thr, thr + BORDERLINE_BAND]`, in pool order. -/
def possiblesFor {α : Type} (d : α → ℚ) (pool : List (Person α)) (thr : ℚ) : List MatchItem :=
  pool.filterMap (fun p =>
    (bestDistEarly d p.samples).bind (fun b =>
      if b ≤ thr then none
      else if b ≤ thr + BORDERLINE_BAND then some (mkItem p b thr "possible") else none))

/-- Embedding of `matchesForDescriptor` (`src/app.js` lines 186-211):
match one face descriptor against the selected people, returning the
distance-sorted `(hits, possibles)` pair. -/
def matchesForDescriptor {α : Type} (d : α → ℚ) (people : List (Person α))
    (sel : List (String × Bool)) (thr : ℚ) : List MatchItem × List MatchItem :=
  let pool := selectedPeople people sel
  (sortByDist (hitsFor d pool thr), sortByDist (possiblesFor d pool thr))

/-- `m.hits[0] || m.possibles[0] || null` (`src/app.js` line 593): the best
candidate for one face. -/
def bestOf (m : List MatchItem × List MatchItem) : Option MatchItem :=
  m.1.head?.orElse (fun _ => m.2.head?)

/-- The reported (early-exit) distances of the identities in the pool that
have at least one sample, in pool order. -/
def poolDists {α : Type} (d : α → ℚ) (pool : List (Person α)) : List ℚ :=
  pool.filterMap (fun p => bestDistEarly d p.samples)

/-- Minimum of a list of rationals (`none` for the empty list). -/
def minOf : List ℚ → Option ℚ
  | [] => none
  | x :: xs => some (xs.foldl min x)

/-- The tier the source assigns to one face observation: the level of its
best candidate (`flagged` from `hits`, `possible` from `possibles`), and
`clear` when there is no candidate. -/
def faceTier {α : Type} (d : α → ℚ) (people : List (Person α))
    (sel : List (String × Bool)) (thr : ℚ) : String :=
  match bestOf (matchesForDescriptor d people sel thr) with
  | some item => item.level
  | none => "clear"

/-- Severity rank of a tier: CLEAR < POSSIBLE < FLAGGED. -/
def tierRank (s : String) : ℕ :=
  if s = "flagged" then 2 else if s = "possible" then 1 else 0

/-- One step of `dedupeByPerson`'s `Map` loop (`src/app.js` lines 215-218):
keep the incoming item only if its person has no entry yet or the incoming
distance is strictly smaller. -/
def dedupeStep (m : List (String × MatchItem)) (item : MatchItem) :
    List (String × MatchItem) :=
  match m.find? (fun e => decide (e.1 = item.personId)) with
  | none => m ++ [(item.personId, item)]
  | some prev =>
    if item.dist < prev.2.dist then
      m.map (fun e => if e.1 = item.personId then (item.personId, item) else e)
    else m

/-- The `Map`-building loop of `dedupeByPerson`, with the `Map` as an
insertion-ordered association list. -/
def dedupeLoop : List (String × MatchItem) → List MatchItem → List (String × MatchItem)
  | m, [] => m
  | m, item :: rest => dedupeLoop (dedupeStep m item) rest

/-- Embedding of `dedupeByPerson` (`src/app.js` lines 213-220): keep the
best entry per person id, then sort ascending by distance. -/
def dedupeByPerson (l : List MatchItem) : List MatchItem :=
  sortByDist ((dedupeLoop [] l).map Prod.snd)

/-- One step of the image-level collection loop (`src/app.js` lines
601-604): a face contributes its `hits` if any, else its `possibles`. -/
def collectStep (acc fr : List MatchItem × List MatchItem) :
    List MatchItem × List MatchItem :=
  if fr.1.length ≠ 0 then (acc.1 ++ fr.1, acc.2)
  else if fr.2.length ≠ 0 then (acc.1, acc.2 ++ fr.2)
  else acc

/-- The image-level `imageHits` / `imagePossibles` accumulation over the
per-face results. -/
def collectImage (frs : List (List MatchItem × List MatchItem)) :
    List MatchItem × List MatchItem :=
  frs.foldl collectStep ([], [])

/-- The per-image verdict assembled by the scan handler: the status tag,
the deduplicated identity list backing the result label, and the number of
(capped) face observations. -/
structure ImageVerdict where
  status : String
  matched : List MatchItem
  faceCount : ℕ
deriving DecidableEq

/-- Embedding of the per-image aggregation of the scan handler
(`src/app.js` lines 597-616): dedupe hits and possibles, pick the status by
worst tier, and keep the list for the matching status. -/
def aggregate (frs : List (List MatchItem × List MatchItem)) : ImageVerdict :=
  let c := collectImage frs
  let uniqHits := dedupeByPerson c.1
  let uniqPoss := dedupeByPerson c.2
  let status := if uniqHits ≠ [] then "flagged" else if uniqPoss ≠ [] then "possible" else "clear"
  let listForLabel := if status = "flagged" then uniqHits
    else if status = "possible" then uniqPoss else []
  ⟨status, listForLabel, frs.length⟩

/-- Total sample count of a pool:
`pool.reduce((s, p) => s + (p.samples?.length || 0), 0)`. -/
def poolSampleCount {α : Type} (pool : List (Person α)) : ℕ :=
  pool.foldl (fun s p => s + p.samples.length) 0

/-- Outcome of pressing the scan button: an early return on an empty file
list, the precondition refusal message, or one verdict per image. -/
inductive ScanOutcome where
  | noFiles : ScanOutcome
  | refused : String → ScanOutcome
  | results : List ImageVerdict → ScanOutcome
deriving DecidableEq

/-- Embedding of the `btnScan` click handler (`src/app.js` lines 548-673)
from its file check onwards (model loading is outside the engine, spec §1).
Each file is the detector's descriptor list for that image;
`d o s` is the distance from descriptor `o` to sample `s`. -/
def scanBatch {α β : Type} (d : β → α → ℚ) (people : List (Person α))
    (sel : List (String × Bool)) (files : List (List β)) (thr : ℚ) : ScanOutcome :=
  if files.length = 0 then ScanOutcome.noFiles
  else
    let pool := selectedPeople people sel
    if pool.length = 0 ∨ poolSampleCount pool = 0 then
      ScanOutcome.refused "No selected people with samples. Check filters and enroll samples first."
    else
      ScanOutcome.results (files.map (fun obs =>
        aggregate ((obs.take MAX_FACES_PER_IMAGE).map
          (fun o => matchesForDescriptor (d o) people sel thr))))

/-- `MIN_FACE_PX` of `src/unnamed/part_001` (line 570). -/
def MIN_FACE_PX : ℚ := 40

/-- `MIN_DET_SCORE` of `src/unnamed/part_001` (line 571). -/
def MIN_DET_SCORE : ℚ := 7/20

/-- `MIN_AR` of `src/unnamed/part_001` (line 572). -/
def MIN_AR : ℚ := 13/20

/-- `MAX_AR` of `src/unnamed/part_001` (line 573). -/
def MAX_AR : ℚ := 8/5

/-- A detection bounding box in detection-surface coordinates. -/
structure Box where
  x : ℚ
  y : ℚ
  width : ℚ
  height : ℚ
deriving DecidableEq

/-- A raw detector observation: box and detection score
(`det.detection.score ?? 0` treats a missing score as 0). -/
structure Detection where
  box : Box
  score : Option ℚ
deriving DecidableEq

/-- Embedding of `isPlausibleFace` (`src/unnamed/part_001` lines 684-704):
reject a detection whose score is too low, whose remapped box is too small,
whose aspect ratio is implausible, or which covers most of the image. -/
def isPlausibleFace (det : Detection) (detScale : ℚ) (imgWidth imgHeight : ℚ) : Bool :=
  let b := det.box
  let score := det.score.getD 0
  let w := b.width / detScale
  let h := b.height / detScale
  if score < MIN_DET_SCORE then false
  else if min w h < MIN_FACE_PX then false
  else if w / h < MIN_AR ∨ w / h > MAX_AR then false
  else if w > imgWidth * (3/4) ∨ h > imgHeight * (3/4) then false
  else true

/-! ## Basic lemmas -/

@[simp]
lemma mkItem_dist {α : Type} (p : Person α) (b thr : ℚ) (lvl : String) :
    (mkItem p b thr lvl).dist = b := rfl

@[simp]
lemma mkItem_level {α : Type} (p : Person α) (b thr : ℚ) (lvl : String) :
    (mkItem p b thr lvl).level = lvl := rfl

@[simp]
lemma mkItem_personId {α : Type} (p : Person α) (b thr : ℚ) (lvl : String) :
    (mkItem p b thr lvl).personId = p.id := rfl

lemma jsRound_nonneg (x : ℚ) (hx : 0 ≤ x) : 0 ≤ jsRound x := by
  unfold jsRound
  exact Int.le_floor.mpr (by push_cast; linarith)

lemma jsRound_le (x : ℚ) (hx : x ≤ 100) : jsRound x ≤ 100 := by
  unfold jsRound
  have : ⌊x + 1/2⌋ < 101 := Int.floor_lt.mpr (by push_cast; linarith)
  omega

/-! ## Lemmas about the distance loop -/

lemma distSqLoop_none (a b : List ℚ) : distSqLoop none a b = none := by
  induction a generalizing b with
  | nil => rfl
  | cons x xs ih => cases b with
    | nil => simpa [distSqLoop] using ih []
    | cons y ys => simpa [distSqLoop] using ih ys

lemma distSqLoop_isSome (a b : List ℚ) (s : ℚ) (h : a.length ≤ b.length) :
    ∃ q, distSqLoop (some s) a b = some q := by
  induction a generalizing b s with
  | nil => exact ⟨s, rfl⟩
  | cons x xs ih =>
    cases b with
    | nil => simp at h
    | cons y ys =>
      simp only [List.length_cons, Nat.add_le_add_iff_right] at h
      simpa [distSqLoop] using ih ys (s + (x - y) ^ 2) h

lemma distSqLoop_short (a b : List ℚ) (s : Option ℚ) (h : b.length < a.length) :
    distSqLoop s a b = none := by
  induction a generalizing b s with
  | nil => simp at h
  | cons x xs ih =>
    cases b with
    | nil => simpa [distSqLoop] using distSqLoop_none xs []
    | cons y ys =>
      simp only [List.length_cons, Nat.add_lt_add_iff_right] at h
      simpa [distSqLoop] using ih ys _ h

lemma distSqLoop_take (a b : List ℚ) (s : Option ℚ) (h : a.length ≤ b.length) :
    distSqLoop s a b = distSqLoop s a (b.take a.length) := by
  induction a generalizing b s with
  | nil => simp [distSqLoop]
  | cons x xs ih =>
    cases b with
    | nil => simp at h
    | cons y ys =>
      simp only [List.length_cons, Nat.add_le_add_iff_right] at h
      simpa [distSqLoop, List.take] using ih ys _ h

/-- C3 (amended): a length mismatch between the two vectors is never
surfaced as an error by `dist`.  When the first vector is at most as long,
the surplus components of the second are silently ignored (the result is
the distance over the shared prefix, a plain number); when the first is
longer, the out-of-range reads make the result `NaN` — still not a raised
error, and `NaN` only arises in that direction. -/
theorem dist_length_mismatch_silent :
    ∀ a b : List ℚ,
      (a.length ≤ b.length →
        distSq a b = distSq a (b.take a.length) ∧ ∃ q, distSq a b = some q) ∧
      (b.length < a.length → distSq a b = none) := by
  intro a b
  constructor
  · intro h
    exact ⟨distSqLoop_take a b (some 0) h, distSqLoop_isSome a b 0 h⟩
  · intro h
    exact distSqLoop_short a b (some 0) h

/-- C3, counterexample to the claim as stated: the embeddings `[0]` and
`[0, 3]` have different lengths, yet the distance computation returns the
plain number `0` (`√0`), with no error: the mismatch is silently coerced. -/
theorem dist_length_mismatch_counterexample :
    ([(0 : ℚ)] : List ℚ).length ≠ ([0, 3] : List ℚ).length ∧
    distSq [(0 : ℚ)] [0, 3] = some 0 := by
  constructor
  · decide
  · norm_num [distSq, distSqLoop]

/-- C6: the reported confidence is exactly the spec formula
`round(100 * clamp(1 - d / (threshold + possibleBand + MARGIN), 0, 1))`
with `MARGIN = 0.25` (for the `src/app.js` variant, `possibleBand` is the
fixed `BORDERLINE_BAND`; for the `src/unnamed/part_001` variant,
`possibleBand = 0`), and it is an integer in `0..100`. -/
theorem confidence_formula_and_range :
    ∀ d thr : ℚ,
      distanceToConfidence d thr = specConfidence d thr BORDERLINE_BAND (1/4) ∧
      distanceToConfidenceV1 d thr = specConfidence d thr 0 (1/4) ∧
      0 ≤ distanceToConfidence d thr ∧ distanceToConfidence d thr ≤ 100 := by
  intro d thr
  refine ⟨?_, ?_, ?_, ?_⟩
  · simp only [distanceToConfidence, specConfidence, clampQ]
    rw [mul_comm]
  · simp only [distanceToConfidenceV1, specConfidence, clampQ, add_zero]
    rw [mul_comm]
  · refine jsRound_nonneg _ ?_
    have h0 : (0:ℚ) ≤ max 0 (min 1 (1 - d / (thr + BORDERLINE_BAND + 1/4))) := le_max_left _ _
    positivity
  · refine jsRound_le _ ?_
    have h1 : max 0 (min 1 (1 - d / (thr + BORDERLINE_BAND + 1/4))) ≤ 1 :=
      max_le (by norm_num) (min_le_left _ _)
    nlinarith

/-- C7: the plausibility filter rejects a raw observation exactly when the
detector score is below `MIN_DET_SCORE`, or the remapped box's smaller side
is below `MIN_FACE_PX`, or the aspect ratio falls outside
`[MIN_AR, MAX_AR]`, or the box exceeds three quarters of the source image
in either dimension — and accepts it otherwise (it is a pure function). -/
theorem plausibility_filter_iff :
    ∀ (det : Detection) (s W H : ℚ),
      (isPlausibleFace det s W H = false ↔
        (det.score.getD 0 < MIN_DET_SCORE ∨
         min (det.box.width / s) (det.box.height / s) < MIN_FACE_PX ∨
         ((det.box.width / s) / (det.box.height / s) < MIN_AR ∨
          (det.box.width / s) / (det.box.height / s) > MAX_AR) ∨
         (det.box.width / s > 3/4 * W ∨ det.box.height / s > 3/4 * H))) ∧
      (isPlausibleFace det s W H = true ↔
        ¬ (det.score.getD 0 < MIN_DET_SCORE ∨
           min (det.box.width / s) (det.box.height / s) < MIN_FACE_PX ∨
           ((det.box.width / s) / (det.box.height / s) < MIN_AR ∨
            (det.box.width / s) / (det.box.height / s) > MAX_AR) ∨
           (det.box.width / s > 3/4 * W ∨ det.box.height / s > 3/4 * H))) := by
  intro det s W H
  have hW : W * (3/4) = 3/4 * W := by ring
  have hH : H * (3/4) = 3/4 * H := by ring
  constructor
  · simp only [isPlausibleFace, hW, hH]
    split_ifs with h1 h2 h3 h4 <;> simp_all
  · simp only [isPlausibleFace, hW, hH]
    split_ifs with h1 h2 h3 h4 <;> simp_all

/-! ## Lemmas about selection resync -/

lemma find?_append_left {α : Type} (p : α → Bool) (l1 l2 : List α) (x : α)
    (h : l1.find? p = some x) : (l1 ++ l2).find? p = some x := by
  induction l1 with
  | nil => simp [List.find?] at h
  | cons a t ih =>
    rw [List.cons_append]
    cases hp : p a with
    | true => rw [List.find?_cons_of_pos _ hp] at h ⊢; exact h
    | false =>
      rw [List.find?_cons_of_neg _ (by simp [hp])] at h ⊢
      exact ih h

lemma find?_append_right {α : Type} (p : α → Bool) (l1 l2 : List α)
    (h : l1.find? p = none) : (l1 ++ l2).find? p = l2.find? p := by
  induction l1 with
  | nil => simp
  | cons a t ih =>
    rw [List.cons_append]
    cases hp : p a with
    | true => rw [List.find?_cons_of_pos _ hp] at h; exact absurd h (by simp)
    | false =>
      rw [List.find?_cons_of_neg _ (by simp [hp])] at h ⊢
      exact ih h

lemma find?_filter_of_imp {α : Type} (p q : α → Bool) (l : List α)
    (h : ∀ x, p x = true → q x = true) : (l.filter q).find? p = l.find? p := by
  induction l with
  | nil => rfl
  | cons a t ih =>
    cases hq : q a with
    | true =>
      rw [List.filter_cons_of_pos hq]
      cases hp : p a with
      | true => rw [List.find?_cons_of_pos _ hp, List.find?_cons_of_pos _ hp]
      | false =>
        rw [List.find?_cons_of_neg _ (by simp [hp]), List.find?_cons_of_neg _ (by simp [hp])]
        exact ih
    | false =>
      rw [List.filter_cons_of_neg (by simp [hq])]
      have hp : p a = false := by
        cases hpa : p a with
        | true => exact absurd (h a hpa) (by simp [hq])
        | false => rfl
      rw [List.find?_cons_of_neg _ (by simp [hp])]
      exact ih

lemma find?_filter_of_excl {α : Type} (p q : α → Bool) (l : List α)
    (h : ∀ x, p x = true → q x = false) : (l.filter q).find? p = none := by
  induction l with
  | nil => rfl
  | cons a t ih =>
    cases hq : q a with
    | true =>
      rw [List.filter_cons_of_pos hq]
      have hp : p a = false := by
        cases hpa : p a with
        | true => exact absurd (h a hpa) (by simp [hq])
        | false => rfl
      rw [List.find?_cons_of_neg _ (by simp [hp])]
      exact ih
    | false =>
      rw [List.filter_cons_of_neg (by simp [hq])]
      exact ih

lemma syncInsert_preserves {α : Type} (pid : String) :
    ∀ (people : List (Person α)) (sel : List (String × Bool)) (x : String × Bool),
      sel.find? (fun e => decide (e.1 = pid)) = some x →
      (people.foldl
        (fun s p => if s.any (fun e => decide (e.1 = p.id)) then s else s ++ [(p.id, true)])
        sel).find? (fun e => decide (e.1 = pid)) = some x := by
  intro people
  induction people with
  | nil => intro sel x h; exact h
  | cons q rest ih =>
    intro sel x h
    rw [List.foldl_cons]
    by_cases hq : sel.any (fun e => decide (e.1 = q.id)) = true
    · rw [if_pos hq]; exact ih sel x h
    · rw [if_neg hq]
      exact ih _ x (find?_append_left _ sel _ x h)

lemma syncInsert_adds {α : Type} (pid : String) :
    ∀ (people : List (Person α)) (sel : List (String × Bool)),
      (∃ p ∈ people, p.id = pid) →
      sel.find? (fun e => decide (e.1 = pid)) = none →
      (people.foldl
        (fun s p => if s.any (fun e => decide (e.1 = p.id)) then s else s ++ [(p.id, true)])
        sel).find? (fun e => decide (e.1 = pid)) = some (pid, true) := by
  intro people
  induction people with
  | nil => rintro sel ⟨p, hp, _⟩ _; simp at hp
  | cons q rest ih =>
    rintro sel ⟨p, hp, hpid⟩ hnone
    rw [List.foldl_cons]
    by_cases hqid : q.id = pid
    · subst hqid
      have hany : sel.any (fun e => decide (e.1 = q.id)) = false := by
        rw [List.any_eq_false]
        intro e he
        have := List.find?_eq_none.mp hnone e he
        simpa using this
      rw [if_neg (by simp [hany])]
      refine syncInsert_preserves q.id rest _ (q.id, true) ?_
      rw [find?_append_right _ _ _ hnone]
      simp [List.find?]
    · have hmem : ∃ p ∈ rest, p.id = pid := by
        rcases List.mem_cons.mp hp with hp' | hp'
        · exact absurd (hp' ▸ hpid) hqid
        · exact ⟨p, hp', hpid⟩
      by_cases hany : sel.any (fun e => decide (e.1 = q.id)) = true
      · rw [if_pos hany]
        exact ih sel hmem hnone
      · rw [if_neg hany]
        refine ih _ hmem ?_
        rw [find?_append_right _ _ _ hnone]
        simp [List.find?, hqid]

/-- C10: resynchronizing the selection map never rewrites the recorded flag
of a profile id that survives (it is both a current profile id and already
present in the map); it only inserts missing profile ids with value `true`
and removes ids that no longer name any profile.  In particular an
explicitly-`false` entry for a surviving profile keeps its value. -/
theorem syncSelection_preserves_survivor_flags :
    ∀ {α : Type} (people : List (Person α)) (sel : List (String × Bool)) (pid : String),
      ((∃ p ∈ people, p.id = pid) →
        (∀ b, lookupSel sel pid = some b → lookupSel (syncSelection people sel) pid = some b) ∧
        (lookupSel sel pid = none → lookupSel (syncSelection people sel) pid = some true)) ∧
      ((∀ p ∈ people, p.id ≠ pid) → lookupSel (syncSelection people sel) pid = none) := by
  intro α people sel pid
  constructor
  · intro hmem
    have hknown : ∀ x : String × Bool, (decide (x.1 = pid)) = true →
        ((people.map Person.id).any (fun k => decide (k = x.1))) = true := by
      intro x hx
      simp only [decide_eq_true_eq] at hx
      rcases hmem with ⟨p, hp, hpid⟩
      rw [List.any_eq_true]
      exact ⟨p.id, List.mem_map_of_mem Person.id hp, by simp [hx, hpid]⟩
    constructor
    · intro b hb
      unfold lookupSel at hb ⊢
      unfold syncSelection
      rw [find?_filter_of_imp _ _ _ hknown]
      rcases Option.map_eq_some'.mp hb with ⟨x, hx, hxb⟩
      rw [syncInsert_preserves pid people sel x hx]
      simp [hxb]
    · intro hnone
      unfold lookupSel at hnone ⊢
      unfold syncSelection
      rw [find?_filter_of_imp _ _ _ hknown]
      have hx : sel.find? (fun e => decide (e.1 = pid)) = none := by
        cases hfind : sel.find? (fun e => decide (e.1 = pid)) with
        | none => rfl
        | some x => rw [hfind] at hnone; simp at hnone
      rw [syncInsert_adds pid people sel hmem hx]
      rfl
  · intro hall
    unfold lookupSel syncSelection
    have hexcl : ∀ x : String × Bool, (decide (x.1 = pid)) = true →
        ((people.map Person.id).any (fun k => decide (k = x.1))) = false := by
      intro x hx
      simp only [decide_eq_true_eq] at hx
      rw [List.any_eq_false]
      intro k hk
      rcases List.mem_map.mp hk with ⟨p, hp, hpk⟩
      simp only [decide_eq_true_eq, hx]
      rw [← hpk]
      exact hall p hp
    rw [find?_filter_of_excl _ _ _ hexcl]
    rfl

/-- C8: a scan requested (with a nonempty file list) while the selected
pool is empty, or has zero samples in total, is refused with the distinct
precondition message before any image is processed: no Image Verdicts are
produced, so the outcome is distinguishable from a CLEAR verdict. -/
theorem scan_refuses_empty_pool :
    ∀ {α β : Type} (d : β → α → ℚ) (people : List (Person α)) (sel : List (String × Bool))
      (files : List (List β)) (thr : ℚ),
      files ≠ [] →
      (selectedPeople people sel = [] ∨ poolSampleCount (selectedPeople people sel) = 0) →
      scanBatch d people sel files thr =
        ScanOutcome.refused
          "No selected people with samples. Check filters and enroll samples first." ∧
      ∀ vs, scanBatch d people sel files thr ≠ ScanOutcome.results vs := by
  intro α β d people sel files thr hf h
  have hrefused : scanBatch d people sel files thr =
      ScanOutcome.refused
        "No selected people with samples. Check filters and enroll samples first." := by
    unfold scanBatch
    rw [if_neg (by simpa [List.length_eq_zero] using hf), if_pos]
    rcases h with h | h
    · exact Or.inl (by simp [h])
    · exact Or.inr h
  refine ⟨hrefused, ?_⟩
  intro vs
  rw [hrefused]
  simp

/-- C8 witness: with no enrolled people at all (hence an empty selected
pool) and one file, the scan is refused with the precondition message. -/
theorem scan_refuses_empty_pool_witness :
    scanBatch (fun (o s : ℚ) => dist1 o s) [] [] [[(0 : ℚ)]] (3/5) =
      ScanOutcome.refused
        "No selected people with samples. Check filters and enroll samples first." :=
  (scan_refuses_empty_pool (fun (o s : ℚ) => dist1 o s) [] [] [[(0 : ℚ)]] (3/5)
    (by simp) (Or.inl rfl)).1

/-! ## Minimum lemmas -/

lemma foldl_min_le_init (l : List ℚ) (a : ℚ) : l.foldl min a ≤ a := by
  induction l generalizing a with
  | nil => exact le_refl a
  | cons x xs ih => exact le_trans (ih (min a x)) (min_le_left a x)

lemma foldl_min_le_mem (l : List ℚ) : ∀ (a x : ℚ), x ∈ l → l.foldl min a ≤ x := by
  induction l with
  | nil => intro a x hx; simp at hx
  | cons y ys ih =>
    intro a x hx
    rcases List.mem_cons.mp hx with h | h
    · subst h
      exact le_trans (foldl_min_le_init ys (min a x)) (min_le_right a x)
    · exact ih (min a y) x h

lemma foldl_min_mem (l : List ℚ) (a : ℚ) : l.foldl min a = a ∨ l.foldl min a ∈ l := by
  induction l generalizing a with
  | nil => exact Or.inl rfl
  | cons x xs ih =>
    rcases ih (min a x) with h | h
    · rcases min_choice a x with hm | hm
      · exact Or.inl (by rw [List.foldl_cons, h, hm])
      · exact Or.inr (by rw [List.foldl_cons, h, hm]; exact List.mem_cons_self x xs)
    · exact Or.inr (List.mem_cons_of_mem x h)

lemma minOf_eq_none_iff (l : List ℚ) : minOf l = none ↔ l = [] := by
  cases l <;> simp [minOf]

lemma minOf_spec (l : List ℚ) (b : ℚ) (h : minOf l = some b) : b ∈ l ∧ ∀ y ∈ l, b ≤ y := by
  cases l with
  | nil => simp [minOf] at h
  | cons x xs =>
    simp only [minOf, Option.some.injEq] at h
    subst h
    constructor
    · rcases foldl_min_mem xs x with h | h
      · rw [h]; exact List.mem_cons_self x xs
      · exact List.mem_cons_of_mem x h
    · intro y hy
      rcases List.mem_cons.mp hy with h | h
      · subst h; exact foldl_min_le_init xs y
      · exact foldl_min_le_mem xs x y h

/-! ## Lemmas about the early-exit sample scan -/

lemma bestSampleLoop_isSome {α : Type} (d : α → ℚ) (l : List α) (b : ℚ) :
    ∃ r, bestSampleLoop d (some b) l = some r := by
  induction l generalizing b with
  | nil => exact ⟨b, rfl⟩
  | cons s rest ih =>
    simp only [bestSampleLoop]
    split_ifs <;> first | exact ⟨_, rfl⟩ | exact ih _

lemma bestDistEarly_eq_none_iff {α : Type} (d : α → ℚ) (l : List α) :
    bestDistEarly d l = none ↔ l = [] := by
  cases l with
  | nil => simp [bestDistEarly, bestSampleLoop]
  | cons s rest =>
    simp only [bestDistEarly, bestSampleLoop, List.cons_ne_nil, iff_false]
    split_ifs with h
    · simp
    · rcases bestSampleLoop_isSome d rest (d s) with ⟨r, hr⟩
      simp [hr]

lemma bestSampleLoop_min_spec {α : Type} (d : α → ℚ) :
    ∀ (l : List α) (b : ℚ), 1/5 ≤ b →
      (1/5 ≤ (l.map d).foldl min b →
        bestSampleLoop d (some b) l = some ((l.map d).foldl min b)) ∧
      ((l.map d).foldl min b < 1/5 →
        ∃ r, bestSampleLoop d (some b) l = some r ∧ r < 1/5 ∧ (l.map d).foldl min b ≤ r) := by
  intro l
  induction l with
  | nil =>
    intro b hb
    refine ⟨fun _ => rfl, fun h => absurd h (by simpa using hb)⟩
  | cons s rest ih =>
    intro b hb
    have hbest2 : (if d s < b then d s else b) = min b (d s) := by
      split_ifs with h
      · exact (min_eq_right h.le).symm
      · exact (min_eq_left (not_lt.mp h)).symm
    simp only [List.map_cons, List.foldl_cons, bestSampleLoop, hbest2]
    split_ifs with hlt
    · constructor
      · intro hge
        exact absurd (lt_of_le_of_lt (foldl_min_le_init _ _) hlt) (not_lt.mpr hge)
      · intro _
        exact ⟨min b (d s), rfl, hlt, foldl_min_le_init _ _⟩
    · exact ih (min b (d s)) (not_lt.mp hlt)

/-- C2 (amended): the early-exit scan reports exactly the true minimum
distance whenever that true minimum is at least the 0.20 cutoff (no break
fires); when the true minimum lies below the cutoff, the reported distance
is also below the cutoff and at least the true minimum — so a FLAGGED
classification at any threshold ≥ 0.20 is unchanged — but it need not equal
the true minimum. -/
theorem early_exit_scan_amended :
    ∀ {α : Type} (d : α → ℚ) (l : List α) (m : ℚ),
      bestDistanceToIdentity d l = some m →
      (1/5 ≤ m → bestDistEarly d l = some m) ∧
      (m < 1/5 → ∃ r, bestDistEarly d l = some r ∧ r < 1/5 ∧ m ≤ r) := by
  intro α d l m h
  cases l with
  | nil => simp [bestDistanceToIdentity] at h
  | cons s rest =>
    simp only [bestDistanceToIdentity, Option.some.injEq] at h
    subst h
    simp only [bestDistEarly, bestSampleLoop]
    split_ifs with hlt
    · constructor
      · intro hge
        exact absurd (lt_of_le_of_lt (foldl_min_le_init _ _) hlt) (not_lt.mpr hge)
      · intro _
        exact ⟨d s, rfl, hlt, foldl_min_le_init _ _⟩
    · exact bestSampleLoop_min_spec d rest (d s) (not_lt.mp hlt)

/-- C2 witness: with sample distances `[0.30, 0.25]` the true minimum is
`0.25 ≥ 0.20`, and the early-exit scan reports exactly `0.25`. -/
theorem early_exit_scan_amended_witness :
    bestDistEarly (fun s : ℚ => s) [3/10, 1/4] = some (1/4) :=
  (early_exit_scan_amended (fun s : ℚ => s) [3/10, 1/4] (1/4)
    (by norm_num [bestDistanceToIdentity, min_def])).1 (by norm_num)

/-- C2, counterexample to the claim as stated: with sample distances
`[0.15, 0.10]` the true minimum `0.10` lies below the `0.20` cutoff, yet
the early-exit scan stops at the first sample and reports `0.15 ≠ 0.10`:
the optimization does change the reported distance. -/
theorem early_exit_reported_distance_counterexample :
    bestDistanceToIdentity (fun s : ℚ => s) [3/20, 1/10] = some (1/10) ∧
    (1/10 : ℚ) < 1/5 ∧
    bestDistEarly (fun s : ℚ => s) [3/20, 1/10] = some (3/20) ∧
    (3/20 : ℚ) ≠ 1/10 := by
  refine ⟨by norm_num [bestDistanceToIdentity, min_def], by norm_num, ?_, by norm_num⟩
  norm_num [bestDistEarly, bestSampleLoop]

/-! ## Lemmas about the matcher -/

lemma mem_hitsFor {α : Type} (d : α → ℚ) (pool : List (Person α)) (thr : ℚ) (x : MatchItem) :
    x ∈ hitsFor d pool thr ↔
      ∃ p ∈ pool, ∃ b, bestDistEarly d p.samples = some b ∧ b ≤ thr ∧
        x = mkItem p b thr "flagged" := by
  simp only [hitsFor, List.mem_filterMap, Option.bind_eq_some]
  constructor
  · rintro ⟨p, hp, b, hb, hx⟩
    split_ifs at hx with h
    exact ⟨p, hp, b, hb, h, (Option.some.inj hx).symm⟩
  · rintro ⟨p, hp, b, hb, h, hx⟩
    exact ⟨p, hp, b, hb, by rw [if_pos h, hx]⟩

lemma mem_possiblesFor {α : Type} (d : α → ℚ) (pool : List (Person α)) (thr : ℚ)
    (x : MatchItem) :
    x ∈ possiblesFor d pool thr ↔
      ∃ p ∈ pool, ∃ b, bestDistEarly d p.samples = some b ∧ ¬ b ≤ thr ∧
        b ≤ thr + BORDERLINE_BAND ∧ x = mkItem p b thr "possible" := by
  simp only [possiblesFor, List.mem_filterMap, Option.bind_eq_some]
  constructor
  · rintro ⟨p, hp, b, hb, hx⟩
    split_ifs at hx with h1 h2
    exact ⟨p, hp, b, hb, h1, h2, (Option.some.inj hx).symm⟩
  · rintro ⟨p, hp, b, hb, h1, h2, hx⟩
    exact ⟨p, hp, b, hb, by rw [if_neg h1, if_pos h2, hx]⟩

lemma map_dist_hitsFor {α : Type} (d : α → ℚ) (pool : List (Person α)) (thr : ℚ) :
    (hitsFor d pool thr).map MatchItem.dist
      = (poolDists d pool).filter (fun b => decide (b ≤ thr)) := by
  induction pool with
  | nil => rfl
  | cons p ps ih =>
    simp only [hitsFor, poolDists] at ih
    cases hbd : bestDistEarly d p.samples with
    | none =>
      simp only [hitsFor, poolDists, List.filterMap_cons, hbd, Option.none_bind]
      exact ih
    | some b =>
      by_cases hb : b ≤ thr
      · simp only [hitsFor, poolDists, List.filterMap_cons, hbd, Option.some_bind, if_pos hb]
        rw [List.filter_cons_of_pos (by simpa using hb)]
        simpa using ih
      · simp only [hitsFor, poolDists, List.filterMap_cons, hbd, Option.some_bind, if_neg hb]
        rw [List.filter_cons_of_neg (by simpa using hb)]
        exact ih

lemma map_dist_possiblesFor {α : Type} (d : α → ℚ) (pool : List (Person α)) (thr : ℚ) :
    (possiblesFor d pool thr).map MatchItem.dist
      = (poolDists d pool).filter
          (fun b => decide (¬ b ≤ thr ∧ b ≤ thr + BORDERLINE_BAND)) := by
  induction pool with
  | nil => rfl
  | cons p ps ih =>
    simp only [possiblesFor, poolDists] at ih
    cases hbd : bestDistEarly d p.samples with
    | none =>
      simp only [possiblesFor, poolDists, List.filterMap_cons, hbd, Option.none_bind]
      exact ih
    | some b =>
      by_cases h1 : b ≤ thr
      · simp only [possiblesFor, poolDists, List.filterMap_cons, hbd, Option.some_bind,
          if_pos h1]
        rw [List.filter_cons_of_neg (by simp [h1])]
        exact ih
      · by_cases h2 : b ≤ thr + BORDERLINE_BAND
        · simp only [possiblesFor, poolDists, List.filterMap_cons, hbd, Option.some_bind,
            if_neg h1, if_pos h2]
          rw [List.filter_cons_of_pos (by simp [h1, h2])]
          simpa using ih
        · simp only [possiblesFor, poolDists, List.filterMap_cons, hbd, Option.some_bind,
            if_neg h1, if_neg h2]
          rw [List.filter_cons_of_neg (by simp [h1, h2])]
          exact ih

/-! ## Sorting lemmas -/

lemma sortByDist_perm (l : List MatchItem) : (sortByDist l).Perm l :=
  List.perm_insertionSort distLE l

lemma sortByDist_sorted (l : List MatchItem) : (sortByDist l).Sorted distLE :=
  List.sorted_insertionSort distLE l

lemma sortByDist_eq_nil_iff (l : List MatchItem) : sortByDist l = [] ↔ l = [] := by
  constructor
  · intro h
    exact List.Perm.eq_nil ((sortByDist_perm l).symm.trans (h ▸ List.Perm.refl _))
  · intro h
    subst h
    rfl

lemma sortByDist_head_min (l : List MatchItem) (x : MatchItem) (t : List MatchItem)
    (h : sortByDist l = x :: t) : x ∈ l ∧ ∀ y ∈ l, x.dist ≤ y.dist := by
  have hperm := sortByDist_perm l
  rw [h] at hperm
  constructor
  · exact hperm.mem_iff.mp (List.mem_cons_self x t)
  · intro y hy
    rcases List.mem_cons.mp (hperm.mem_iff.mpr hy) with h' | h'
    · subst h'
      exact le_refl _
    · have hs := sortByDist_sorted l
      rw [h] at hs
      exact List.rel_of_sorted_cons hs y h'

lemma matcher_spec {α : Type} (d : α → ℚ) (people : List (Person α))
    (sel : List (String × Bool)) (thr : ℚ) :
    (minOf (poolDists d (selectedPeople people sel)) = none →
      bestOf (matchesForDescriptor d people sel thr) = none) ∧
    ∀ b, minOf (poolDists d (selectedPeople people sel)) = some b →
      (b ≤ thr →
        ∃ p, p ∈ selectedPeople people sel ∧ bestDistEarly d p.samples = some b ∧
          bestOf (matchesForDescriptor d people sel thr)
            = some (mkItem p b thr "flagged")) ∧
      (¬ b ≤ thr → b ≤ thr + BORDERLINE_BAND →
        ∃ p, p ∈ selectedPeople people sel ∧ bestDistEarly d p.samples = some b ∧
          bestOf (matchesForDescriptor d people sel thr)
            = some (mkItem p b thr "possible")) ∧
      (¬ b ≤ thr + BORDERLINE_BAND →
        bestOf (matchesForDescriptor d people sel thr) = none) := by
  set pool := selectedPeople people sel with hpool
  have hm : matchesForDescriptor d people sel thr
      = (sortByDist (hitsFor d pool thr), sortByDist (possiblesFor d pool thr)) := rfl
  constructor
  · intro hnone
    have hds : poolDists d pool = [] := (minOf_eq_none_iff _).mp hnone
    have hhits : hitsFor d pool thr = [] := by
      have h1 : (hitsFor d pool thr).map MatchItem.dist = [] := by
        rw [map_dist_hitsFor, hds]
        rfl
      exact List.map_eq_nil_iff.mp h1
    have hposs : possiblesFor d pool thr = [] := by
      have h1 : (possiblesFor d pool thr).map MatchItem.dist = [] := by
        rw [map_dist_possiblesFor, hds]
        rfl
      exact List.map_eq_nil_iff.mp h1
    rw [hm, hhits, hposs]
    rfl
  · intro b hb
    obtain ⟨hbmem, hble⟩ := minOf_spec _ b hb
    refine ⟨?_, ?_, ?_⟩
    · intro hbthr
      have hbf : b ∈ (hitsFor d pool thr).map MatchItem.dist := by
        rw [map_dist_hitsFor]
        exact List.mem_filter.mpr ⟨hbmem, by simpa using hbthr⟩
      rcases List.mem_map.mp hbf with ⟨z, hz, hzb⟩
      cases hsort : sortByDist (hitsFor d pool thr) with
      | nil =>
        rw [sortByDist_eq_nil_iff] at hsort
        rw [hsort] at hz
        simp at hz
      | cons x t =>
        obtain ⟨hxmem, hxmin⟩ := sortByDist_head_min _ x t hsort
        have hxd1 : x.dist ≤ b := hzb ▸ hxmin z hz
        have hxd2 : b ≤ x.dist := by
          have hxf : x.dist ∈ (hitsFor d pool thr).map MatchItem.dist :=
            List.mem_map_of_mem _ hxmem
          rw [map_dist_hitsFor] at hxf
          exact hble _ (List.mem_filter.mp hxf).1
        have hxd : x.dist = b := le_antisymm hxd1 hxd2
        rcases (mem_hitsFor d pool thr x).mp hxmem with ⟨p, hp, b', hb', hb'thr, hxeq⟩
        have hb'b : b' = b := by
          rw [hxeq] at hxd
          simpa using hxd
        subst hb'b
        refine ⟨p, hp, hb', ?_⟩
        rw [hm, hsort, ← hxeq]
        rfl
    · intro hnthr hband
      have hfe : (poolDists d pool).filter (fun q => decide (q ≤ thr)) = [] := by
        refine List.filter_eq_nil_iff.mpr ?_
        intro y hy
        simp only [decide_eq_true_eq]
        intro hc
        exact hnthr (le_trans (hble y hy) hc)
      have hhits : hitsFor d pool thr = [] := by
        have h1 : (hitsFor d pool thr).map MatchItem.dist = [] := by
          rw [map_dist_hitsFor, hfe]
        exact List.map_eq_nil_iff.mp h1
      have hbf : b ∈ (possiblesFor d pool thr).map MatchItem.dist := by
        rw [map_dist_possiblesFor]
        exact List.mem_filter.mpr ⟨hbmem, by simp [hnthr, hband]⟩
      rcases List.mem_map.mp hbf with ⟨z, hz, hzb⟩
      cases hsort : sortByDist (possiblesFor d pool thr) with
      | nil =>
        rw [sortByDist_eq_nil_iff] at hsort
        rw [hsort] at hz
        simp at hz
      | cons x t =>
        obtain ⟨hxmem, hxmin⟩ := sortByDist_head_min _ x t hsort
        have hxd1 : x.dist ≤ b := hzb ▸ hxmin z hz
        have hxd2 : b ≤ x.dist := by
          have hxf : x.dist ∈ (possiblesFor d pool thr).map MatchItem.dist :=
            List.mem_map_of_mem _ hxmem
          rw [map_dist_possiblesFor] at hxf
          exact hble _ (List.mem_filter.mp hxf).1
        have hxd : x.dist = b := le_antisymm hxd1 hxd2
        rcases (mem_possiblesFor d pool thr x).mp hxmem with ⟨p, hp, b', hb', h1, h2, hxeq⟩
        have hb'b : b' = b := by
          rw [hxeq] at hxd
          simpa using hxd
        subst hb'b
        refine ⟨p, hp, hb', ?_⟩
        rw [hm, hhits, hsort, ← hxeq]
        rfl
    · intro hnband
      have hnthr : ¬ b ≤ thr := by
        intro hc
        refine hnband (le_trans hc ?_)
        unfold BORDERLINE_BAND
        linarith
      have hhits : hitsFor d pool thr = [] := by
        have h1 : (hitsFor d pool thr).map MatchItem.dist = [] := by
          rw [map_dist_hitsFor]
          refine List.filter_eq_nil_iff.mpr ?_
          intro y hy
          simp only [decide_eq_true_eq]
          intro hc
          exact hnthr (le_trans (hble y hy) hc)
        exact List.map_eq_nil_iff.mp h1
      have hposs : possiblesFor d pool thr = [] := by
        have h1 : (possiblesFor d pool thr).map MatchItem.dist = [] := by
          rw [map_dist_possiblesFor]
          refine List.filter_eq_nil_iff.mpr ?_
          intro y hy
          simp only [decide_eq_true_eq, not_and]
          intro _ hc
          exact hnband (le_trans (hble y hy) hc)
        exact List.map_eq_nil_iff.mp h1
      rw [hm, hhits, hposs]
      rfl

lemma faceTier_of_none {α : Type} (d : α → ℚ) (people : List (Person α))
    (sel : List (String × Bool)) (thr : ℚ)
    (h : minOf (poolDists d (selectedPeople people sel)) = none) :
    faceTier d people sel thr = "clear" := by
  unfold faceTier
  rw [(matcher_spec d people sel thr).1 h]

lemma faceTier_of_some {α : Type} (d : α → ℚ) (people : List (Person α))
    (sel : List (String × Bool)) (thr : ℚ) (b : ℚ)
    (h : minOf (poolDists d (selectedPeople people sel)) = some b) :
    faceTier d people sel thr =
      if b ≤ thr then "flagged"
      else if b ≤ thr + BORDERLINE_BAND then "possible" else "clear" := by
  have hs := (matcher_spec d people sel thr).2 b h
  by_cases h1 : b ≤ thr
  · rcases hs.1 h1 with ⟨p, _, _, hbest⟩
    unfold faceTier
    rw [hbest, if_pos h1]
    rfl
  · by_cases h2 : b ≤ thr + BORDERLINE_BAND
    · rcases hs.2.1 h1 h2 with ⟨p, _, _, hbest⟩
      unfold faceTier
      rw [hbest, if_neg h1, if_pos h2]
      rfl
    · have hbest := hs.2.2 h2
      unfold faceTier
      rw [hbest, if_neg h1, if_neg h2]

/-- C1 (amended): for every face observation and configuration, the Matcher
classifies the identity whose reported (early-exit scan) distance is
minimal among selected identities with at least one sample — identities
with empty samples are skipped (`bestDistEarly = none`): if that minimal
reported distance is `≤ threshold` the result is that identity at tier
FLAGGED; if it lies in `(threshold, threshold + possibleBand]` the result
is that identity at tier POSSIBLE; otherwise the observation yields no
match result. -/
theorem matcher_classifies_min_reported_distance :
    ∀ {α : Type} (d : α → ℚ) (people : List (Person α)) (sel : List (String × Bool)) (thr : ℚ),
      (minOf (poolDists d (selectedPeople people sel)) = none →
        bestOf (matchesForDescriptor d people sel thr) = none) ∧
      ∀ b, minOf (poolDists d (selectedPeople people sel)) = some b →
        (b ≤ thr →
          ∃ p, p ∈ selectedPeople people sel ∧ bestDistEarly d p.samples = some b ∧
            bestOf (matchesForDescriptor d people sel thr)
              = some (mkItem p b thr "flagged")) ∧
        (¬ b ≤ thr → b ≤ thr + BORDERLINE_BAND →
          ∃ p, p ∈ selectedPeople people sel ∧ bestDistEarly d p.samples = some b ∧
            bestOf (matchesForDescriptor d people sel thr)
              = some (mkItem p b thr "possible")) ∧
        (¬ b ≤ thr + BORDERLINE_BAND →
          bestOf (matchesForDescriptor d people sel thr) = none) := by
  intro α d people sel thr
  exact matcher_spec d people sel thr

/-- C1, counterexample to the claim as stated: one identity "Alice" with
two samples at distances `0.15` and `0.01` from the query, threshold
`0.05 > 0` (the code's fixed possibleBand is `0.10`).  The true minimum
distance (`bestDistanceToIdentity`) is `0.01 ≤ threshold`, so the claim
says tier FLAGGED; but the early-exit scan reports `0.15`, the Matcher
produces no FLAGGED hit at all and classifies the observation POSSIBLE at
distance `0.15`. -/
theorem matcher_true_min_counterexample :
    bestDistanceToIdentity (fun s : ℚ => s)
        ((⟨"a1", "Alice", [3/20, 1/100]⟩ : Person ℚ).samples) = some (1/100) ∧
    (1/100 : ℚ) ≤ 1/20 ∧
    (matchesForDescriptor (fun s : ℚ => s) [⟨"a1", "Alice", [3/20, 1/100]⟩] [] (1/20)).1
      = [] ∧
    bestOf (matchesForDescriptor (fun s : ℚ => s) [⟨"a1", "Alice", [3/20, 1/100]⟩] [] (1/20))
      = some (mkItem (⟨"a1", "Alice", [3/20, 1/100]⟩ : Person ℚ) (3/20) (1/20) "possible") := by
  refine ⟨by norm_num [bestDistanceToIdentity, min_def], by norm_num, ?_, ?_⟩
  · norm_num [matchesForDescriptor, selectedPeople, lookupSel, hitsFor, possiblesFor,
      bestDistEarly, bestSampleLoop, sortByDist, List.insertionSort, List.filterMap,
      List.find?, BORDERLINE_BAND]
  · norm_num [matchesForDescriptor, selectedPeople, lookupSel, hitsFor, possiblesFor,
      bestDistEarly, bestSampleLoop, sortByDist, List.insertionSort, List.orderedInsert,
      List.filterMap, List.find?, BORDERLINE_BAND, bestOf, mkItem]

/-- C9: with the observation set and the band fixed, raising the threshold
can only move a face observation's classification up in severity
(CLEAR → POSSIBLE → FLAGGED), never backward: a FLAGGED observation stays
FLAGGED and a POSSIBLE observation stays POSSIBLE or becomes FLAGGED. -/
theorem classification_monotone_in_threshold :
    ∀ {α : Type} (d : α → ℚ) (people : List (Person α)) (sel : List (String × Bool))
      (thr thr' : ℚ),
      thr ≤ thr' →
      (faceTier d people sel thr = "flagged" → faceTier d people sel thr' = "flagged") ∧
      (faceTier d people sel thr = "possible" →
        faceTier d people sel thr' = "possible" ∨ faceTier d people sel thr' = "flagged") ∧
      tierRank (faceTier d people sel thr) ≤ tierRank (faceTier d people sel thr') := by
  intro α d people sel thr thr' hle
  cases hmin : minOf (poolDists d (selectedPeople people sel)) with
  | none =>
    rw [faceTier_of_none d people sel thr hmin, faceTier_of_none d people sel thr' hmin]
    exact ⟨fun h => h, fun h => by simp at h, le_refl _⟩
  | some b =>
    rw [faceTier_of_some d people sel thr b hmin, faceTier_of_some d people sel thr' b hmin]
    by_cases h1 : b ≤ thr
    · rw [if_pos h1, if_pos (le_trans h1 hle)]
      exact ⟨fun _ => rfl, fun h => by simp at h, le_refl _⟩
    · by_cases h2 : b ≤ thr + BORDERLINE_BAND
      · rw [if_neg h1, if_pos h2]
        by_cases h1' : b ≤ thr'
        · rw [if_pos h1']
          exact ⟨fun h => by simp at h, fun _ => Or.inr rfl, by simp [tierRank]⟩
        · rw [if_neg h1', if_pos (le_trans h2 (by linarith))]
          exact ⟨fun h => by simp at h, fun _ => Or.inl rfl, le_refl _⟩
      · rw [if_neg h1, if_neg h2]
        by_cases h1' : b ≤ thr'
        · rw [if_pos h1']
          exact ⟨fun h => by simp at h, fun h => by simp at h, by simp [tierRank]⟩
        · by_cases h2' : b ≤ thr' + BORDERLINE_BAND
          · rw [if_neg h1', if_pos h2']
            exact ⟨fun h => by simp at h, fun h => by simp at h, by simp [tierRank]⟩
          · rw [if_neg h1', if_neg h2']
            exact ⟨fun h => h, fun h => by simp at h, le_refl _⟩

/-- C9 witness: a face at distance `0.5` from Alice's only sample is
FLAGGED at threshold `0.6`; by monotonicity it stays FLAGGED at `0.7`. -/
theorem classification_monotone_in_threshold_witness :
    faceTier (fun s : ℚ => s) [⟨"a1", "Alice", [(1:ℚ)/2]⟩] [] (7/10) = "flagged" := by
  refine (classification_monotone_in_threshold (fun s : ℚ => s)
      [⟨"a1", "Alice", [(1:ℚ)/2]⟩] [] (3/5) (7/10) (by norm_num)).1 ?_
  norm_num [faceTier, matchesForDescriptor, selectedPeople, lookupSel, hitsFor, possiblesFor,
    bestDistEarly, bestSampleLoop, sortByDist, List.insertionSort, List.orderedInsert,
    List.filterMap, List.find?, bestOf, mkItem]

/-! ## Lemmas about image-level aggregation -/

lemma collect_foldl_fst (frs : List (List MatchItem × List MatchItem)) :
    ∀ acc : List MatchItem × List MatchItem,
      ((frs.foldl collectStep acc).1 = [] ↔ acc.1 = [] ∧ ∀ fr ∈ frs, fr.1 = []) := by
  induction frs with
  | nil => intro acc; simp
  | cons fr rest ih =>
    intro acc
    rw [List.foldl_cons, ih]
    unfold collectStep
    split_ifs with h1 h2
    · have : fr.1 ≠ [] := by simpa [List.length_eq_zero] using h1
      simp only [List.append_eq_nil]
      constructor
      · rintro ⟨⟨_, hfr⟩, _⟩
        exact absurd hfr this
      · rintro ⟨_, hall⟩
        exact absurd (hall fr (List.mem_cons_self fr rest)) this
    · simp only []
      constructor
      · rintro ⟨ha, hall⟩
        refine ⟨ha, ?_⟩
        intro fr' hfr'
        rcases List.mem_cons.mp hfr' with h | h
        · subst h
          simpa [List.length_eq_zero] using h1
        · exact hall fr' h
      · rintro ⟨ha, hall⟩
        exact ⟨ha, fun fr' hfr' => hall fr' (List.mem_cons_of_mem fr hfr')⟩
    · constructor
      · rintro ⟨ha, hall⟩
        refine ⟨ha, ?_⟩
        intro fr' hfr'
        rcases List.mem_cons.mp hfr' with h | h
        · subst h
          simpa [List.length_eq_zero] using h1
        · exact hall fr' h
      · rintro ⟨ha, hall⟩
        exact ⟨ha, fun fr' hfr' => hall fr' (List.mem_cons_of_mem fr hfr')⟩

lemma collect_foldl_snd (frs : List (List MatchItem × List MatchItem)) :
    ∀ acc : List MatchItem × List MatchItem,
      ((frs.foldl collectStep acc).2 = [] ↔
        acc.2 = [] ∧ ∀ fr ∈ frs, fr.1 = [] → fr.2 = []) := by
  induction frs with
  | nil => intro acc; simp
  | cons fr rest ih =>
    intro acc
    rw [List.foldl_cons, ih]
    unfold collectStep
    split_ifs with h1 h2
    · have hfr1 : fr.1 ≠ [] := by simpa [List.length_eq_zero] using h1
      simp only []
      constructor
      · rintro ⟨ha, hall⟩
        refine ⟨ha, ?_⟩
        intro fr' hfr'
        rcases List.mem_cons.mp hfr' with h | h
        · subst h
          intro hc
          exact absurd hc hfr1
        · exact hall fr' h
      · rintro ⟨ha, hall⟩
        exact ⟨ha, fun fr' hfr' => hall fr' (List.mem_cons_of_mem fr hfr')⟩
    · have hfr1 : fr.1 = [] := by simpa [List.length_eq_zero] using h1
      have hfr2 : fr.2 ≠ [] := by simpa [List.length_eq_zero] using h2
      simp only [List.append_eq_nil]
      constructor
      · rintro ⟨⟨_, hc⟩, _⟩
        exact absurd hc hfr2
      · rintro ⟨_, hall⟩
        exact absurd (hall fr (List.mem_cons_self fr rest) hfr1) hfr2
    · have hfr1 : fr.1 = [] := by simpa [List.length_eq_zero] using h1
      have hfr2 : fr.2 = [] := by simpa [List.length_eq_zero] using h2
      constructor
      · rintro ⟨ha, hall⟩
        refine ⟨ha, ?_⟩
        intro fr' hfr'
        rcases List.mem_cons.mp hfr' with h | h
        · subst h
          intro _
          exact hfr2
        · exact hall fr' h
      · rintro ⟨ha, hall⟩
        exact ⟨ha, fun fr' hfr' => hall fr' (List.mem_cons_of_mem fr hfr')⟩

lemma collectImage_fst_nil (frs : List (List MatchItem × List MatchItem)) :
    (collectImage frs).1 = [] ↔ ∀ fr ∈ frs, fr.1 = [] := by
  unfold collectImage
  rw [collect_foldl_fst frs ([], [])]
  simp

lemma collectImage_snd_nil (frs : List (List MatchItem × List MatchItem)) :
    (collectImage frs).2 = [] ↔ ∀ fr ∈ frs, fr.1 = [] → fr.2 = [] := by
  unfold collectImage
  rw [collect_foldl_snd frs ([], [])]
  simp

/-! ## Lemmas about deduplication -/

lemma dedupeStep_ne_nil (m : List (String × MatchItem)) (item : MatchItem) :
    dedupeStep m item ≠ [] := by
  unfold dedupeStep
  cases hf : m.find? (fun e => decide (e.1 = item.personId)) with
  | none => simp
  | some prev =>
    dsimp only
    split_ifs with h
    · intro hc
      rw [List.map_eq_nil_iff] at hc
      subst hc
      simp [List.find?] at hf
    · intro hc
      subst hc
      simp [List.find?] at hf

lemma dedupeLoop_ne_nil (l : List MatchItem) :
    ∀ m : List (String × MatchItem), m ≠ [] → dedupeLoop m l ≠ [] := by
  induction l with
  | nil => intro m hm; exact hm
  | cons item rest ih =>
    intro m _
    exact ih (dedupeStep m item) (dedupeStep_ne_nil m item)

lemma dedupeByPerson_eq_nil_iff (l : List MatchItem) : dedupeByPerson l = [] ↔ l = [] := by
  constructor
  · intro h
    cases hl : l with
    | nil => rfl
    | cons item rest =>
      exfalso
      unfold dedupeByPerson at h
      rw [sortByDist_eq_nil_iff, List.map_eq_nil_iff] at h
      rw [hl] at h
      exact dedupeLoop_ne_nil rest (dedupeStep [] item) (dedupeStep_ne_nil [] item)
        (by simpa [dedupeLoop] using h)
  · intro h
    subst h
    rfl

/-- C4: the Aggregator gives an image the most severe tier among its
per-face matches — FLAGGED if some face has a FLAGGED match, else POSSIBLE
if some face (necessarily with no FLAGGED match) has a POSSIBLE match, else
CLEAR — and an image with zero observations yields tier CLEAR, zero face
count, and an empty matched-identities list. -/
theorem aggregator_worst_tier_wins :
    ∀ frs : List (List MatchItem × List MatchItem),
      ((aggregate frs).status = "flagged" ↔ ∃ fr ∈ frs, fr.1 ≠ []) ∧
      ((aggregate frs).status = "possible" ↔
        ((∀ fr ∈ frs, fr.1 = []) ∧ ∃ fr ∈ frs, fr.2 ≠ [])) ∧
      ((aggregate frs).status = "clear" ↔ (∀ fr ∈ frs, fr.1 = [] ∧ fr.2 = [])) ∧
      (aggregate frs).faceCount = frs.length ∧
      aggregate [] = ⟨"clear", [], 0⟩ := by
  intro frs
  have hfst := collectImage_fst_nil frs
  have hsnd := collectImage_snd_nil frs
  have hhn : dedupeByPerson (collectImage frs).1 = [] ↔ ∀ fr ∈ frs, fr.1 = [] := by
    rw [dedupeByPerson_eq_nil_iff]
    exact hfst
  have hpn : dedupeByPerson (collectImage frs).2 = [] ↔ ∀ fr ∈ frs, fr.1 = [] → fr.2 = [] := by
    rw [dedupeByPerson_eq_nil_iff]
    exact hsnd
  refine ⟨?_, ?_, ?_, rfl, rfl⟩
  · simp only [aggregate]
    split_ifs with h1 h2
    · simp only [true_iff]
      by_contra hc
      push_neg at hc
      exact h1 (hhn.mpr fun fr hfr => hc fr hfr)
    · rw [not_not] at h1
      constructor
      · intro hc
        exact absurd hc (by simp)
      · rintro ⟨fr, hfr, hfr1⟩
        exact absurd (hhn.mp h1 fr hfr) hfr1
    · rw [not_not] at h1
      constructor
      · intro hc
        exact absurd hc (by simp)
      · rintro ⟨fr, hfr, hfr1⟩
        exact absurd (hhn.mp h1 fr hfr) hfr1
  · simp only [aggregate]
    split_ifs with h1 h2
    · constructor
      · intro hc
        exact absurd hc (by simp)
      · rintro ⟨hall, _⟩
        exact absurd (hhn.mpr hall) h1
    · rw [not_not] at h1
      simp only [true_iff]
      refine ⟨hhn.mp h1, ?_⟩
      by_contra hc
      push_neg at hc
      exact h2 (hpn.mpr fun fr hfr _ => hc fr hfr)
    · rw [not_not] at h1 h2
      constructor
      · intro hc
        exact absurd hc (by simp)
      · rintro ⟨hall, fr, hfr, hfr2⟩
        exact absurd (hpn.mp h2 fr hfr (hall fr hfr)) hfr2
  · simp only [aggregate]
    split_ifs with h1 h2
    · constructor
      · intro hc
        exact absurd hc (by simp)
      · intro hall
        exact absurd (hhn.mpr fun fr hfr => (hall fr hfr).1) h1
    · constructor
      · intro hc
        exact absurd hc (by simp)
      · intro hall
        exact absurd (hpn.mpr fun fr hfr _ => (hall fr hfr).2) h2
    · rw [not_not] at h1 h2
      simp only [true_iff]
      intro fr hfr
      exact ⟨hhn.mp h1 fr hfr, hpn.mp h2 fr hfr (hhn.mp h1 fr hfr)⟩

lemma keys_unique_entry_eq : ∀ (m : List (String × MatchItem)),
    (m.map Prod.fst).Pairwise (· ≠ ·) →
    ∀ e1 ∈ m, ∀ e2 ∈ m, e1.1 = e2.1 → e1 = e2 := by
  intro m
  induction m with
  | nil => intro _ e1 he1; simp at he1
  | cons a t ih =>
    intro hpw e1 he1 e2 he2 heq
    rw [List.map_cons, List.pairwise_cons] at hpw
    obtain ⟨hhead, htail⟩ := hpw
    rcases List.mem_cons.mp he1 with h1 | h1 <;> rcases List.mem_cons.mp he2 with h2 | h2
    · rw [h1, h2]
    · subst h1
      exact absurd heq (hhead e2.1 (List.mem_map_of_mem Prod.fst h2))
    · subst h2
      exact absurd heq.symm (hhead e1.1 (List.mem_map_of_mem Prod.fst h1))
    · exact ih htail e1 h1 e2 h2 heq


lemma dedupeStep_inv (m : List (String × MatchItem)) (proc : List MatchItem) (item : MatchItem)
    (h1 : (m.map Prod.fst).Pairwise (· ≠ ·))
    (h2 : ∀ e ∈ m, e.2.personId = e.1 ∧ e.2 ∈ proc ∧
      ∀ y ∈ proc, y.personId = e.1 → e.2.dist ≤ y.dist)
    (h3 : ∀ y ∈ proc, ∃ e ∈ m, e.1 = y.personId) :
    ((dedupeStep m item).map Prod.fst).Pairwise (· ≠ ·) ∧
    (∀ e ∈ dedupeStep m item, e.2.personId = e.1 ∧ e.2 ∈ proc ++ [item] ∧
      ∀ y ∈ proc ++ [item], y.personId = e.1 → e.2.dist ≤ y.dist) ∧
    (∀ y ∈ proc ++ [item], ∃ e ∈ dedupeStep m item, e.1 = y.personId) := by
  unfold dedupeStep
  cases hf : m.find? (fun e => decide (e.1 = item.personId)) with
  | none =>
    have hno : ∀ e ∈ m, e.1 ≠ item.personId := by
      intro e he
      have := List.find?_eq_none.mp hf e he
      simpa using this
    dsimp only
    refine ⟨?_, ?_, ?_⟩
    · rw [List.map_append, List.pairwise_append]
      refine ⟨h1, by simp, ?_⟩
      intro k hk k' hk'
      simp only [List.map_cons, List.map_nil, List.mem_singleton] at hk'
      rcases List.mem_map.mp hk with ⟨e, he, hek⟩
      rw [hk', ← hek]
      exact hno e he
    · intro e he
      rcases List.mem_append.mp he with he | he
      · obtain ⟨hid, hmem, hmin⟩ := h2 e he
        refine ⟨hid, List.mem_append_left _ hmem, ?_⟩
        intro y hy hyid
        rcases List.mem_append.mp hy with hy | hy
        · exact hmin y hy hyid
        · have hyitem : y = item := List.mem_singleton.mp hy
          rw [hyitem] at hyid
          exact absurd hyid.symm (hno e he)
      · have heeq : e = (item.personId, item) := List.mem_singleton.mp he
        rw [heeq]
        refine ⟨rfl, List.mem_append_right _ (List.mem_singleton_self _), ?_⟩
        intro y hy hyid
        rcases List.mem_append.mp hy with hy | hy
        · rcases h3 y hy with ⟨e', he', hk⟩
          exact absurd (hk.trans hyid) (hno e' he')
        · have hyitem : y = item := List.mem_singleton.mp hy
          rw [hyitem]
    · intro y hy
      rcases List.mem_append.mp hy with hy | hy
      · rcases h3 y hy with ⟨e, he, hk⟩
        exact ⟨e, List.mem_append_left _ he, hk⟩
      · have hyitem : y = item := List.mem_singleton.mp hy
        rw [hyitem]
        exact ⟨(item.personId, item),
          List.mem_append_right _ (List.mem_singleton_self _), rfl⟩
  | some prev =>
    have hprevm : prev ∈ m := List.mem_of_find?_eq_some hf
    have hprevk : prev.1 = item.personId := by
      have := List.find?_some hf
      simpa using this
    dsimp only
    split_ifs with hdlt
    · refine ⟨?_, ?_, ?_⟩
      · have hkeys : (List.map
            (fun e => if e.1 = item.personId then (item.personId, item) else e) m).map
              Prod.fst = m.map Prod.fst := by
          rw [List.map_map]
          refine List.map_congr_left ?_
          intro e _
          by_cases hk : e.1 = item.personId
          · simp [hk]
          · simp [hk]
        rw [hkeys]
        exact h1
      · intro e' he'
        rcases List.mem_map.mp he' with ⟨e, he, hge⟩
        by_cases hk : e.1 = item.personId
        · have he'eq : e' = (item.personId, item) := by
            rw [← hge, if_pos hk]
          rw [he'eq]
          refine ⟨rfl, List.mem_append_right _ (List.mem_singleton_self _), ?_⟩
          intro y hy hyid
          rcases List.mem_append.mp hy with hy | hy
          · obtain ⟨_, _, hpmin⟩ := h2 prev hprevm
            have hys : prev.2.dist ≤ y.dist := hpmin y hy (hyid.trans hprevk.symm)
            exact le_trans hdlt.le hys
          · have hyitem : y = item := List.mem_singleton.mp hy
            rw [hyitem]
        · have he'eq : e' = e := by
            rw [← hge, if_neg hk]
          obtain ⟨hid, hmem, hmin⟩ := h2 e he
          rw [he'eq]
          refine ⟨hid, List.mem_append_left _ hmem, ?_⟩
          intro y hy hyid
          rcases List.mem_append.mp hy with hy | hy
          · exact hmin y hy hyid
          · have hyitem : y = item := List.mem_singleton.mp hy
            rw [hyitem] at hyid
            exact absurd hyid.symm hk
      · intro y hy
        rcases List.mem_append.mp hy with hy | hy
        · rcases h3 y hy with ⟨e, he, hk⟩
          refine ⟨if e.1 = item.personId then (item.personId, item) else e,
            List.mem_map_of_mem _ he, ?_⟩
          by_cases hke : e.1 = item.personId
          · rw [if_pos hke, ← hke]
            exact hk
          · rw [if_neg hke]
            exact hk
        · have hyitem : y = item := List.mem_singleton.mp hy
          rw [hyitem]
          refine ⟨if prev.1 = item.personId then (item.personId, item) else prev,
            List.mem_map_of_mem _ hprevm, ?_⟩
          rw [if_pos hprevk]
    · refine ⟨h1, ?_, ?_⟩
      · intro e he
        obtain ⟨hid, hmem, hmin⟩ := h2 e he
        refine ⟨hid, List.mem_append_left _ hmem, ?_⟩
        intro y hy hyid
        rcases List.mem_append.mp hy with hy | hy
        · exact hmin y hy hyid
        · have hyitem : y = item := List.mem_singleton.mp hy
          rw [hyitem] at hyid ⊢
          have heprev : e = prev :=
            keys_unique_entry_eq m h1 e he prev hprevm (by rw [← hyid, hprevk])
          rw [heprev]
          exact not_lt.mp hdlt
      · intro y hy
        rcases List.mem_append.mp hy with hy | hy
        · exact h3 y hy
        · have hyitem : y = item := List.mem_singleton.mp hy
          rw [hyitem]
          exact ⟨prev, hprevm, hprevk⟩

lemma dedupeLoop_inv : ∀ (l : List MatchItem) (m : List (String × MatchItem))
    (proc : List MatchItem),
    (m.map Prod.fst).Pairwise (· ≠ ·) →
    (∀ e ∈ m, e.2.personId = e.1 ∧ e.2 ∈ proc ∧
      ∀ y ∈ proc, y.personId = e.1 → e.2.dist ≤ y.dist) →
    (∀ y ∈ proc, ∃ e ∈ m, e.1 = y.personId) →
    ((dedupeLoop m l).map Prod.fst).Pairwise (· ≠ ·) ∧
    (∀ e ∈ dedupeLoop m l, e.2.personId = e.1 ∧ e.2 ∈ proc ++ l ∧
      ∀ y ∈ proc ++ l, y.personId = e.1 → e.2.dist ≤ y.dist) ∧
    (∀ y ∈ proc ++ l, ∃ e ∈ dedupeLoop m l, e.1 = y.personId) := by
  intro l
  induction l with
  | nil =>
    intro m proc h1 h2 h3
    simp only [dedupeLoop, List.append_nil]
    exact ⟨h1, h2, h3⟩
  | cons item rest ih =>
    intro m proc h1 h2 h3
    obtain ⟨g1, g2, g3⟩ := dedupeStep_inv m proc item h1 h2 h3
    have hrec := ih (dedupeStep m item) (proc ++ [item]) g1 g2 g3
    have heq : (proc ++ [item]) ++ rest = proc ++ item :: rest := by
      rw [List.append_assoc]
      rfl
    rw [show dedupeLoop m (item :: rest) = dedupeLoop (dedupeStep m item) rest from rfl]
    rw [← heq]
    exact hrec

lemma dedupe_core (l : List MatchItem) :
    ((dedupeLoop [] l).map Prod.fst).Pairwise (· ≠ ·) ∧
    (∀ e ∈ dedupeLoop [] l, e.2.personId = e.1 ∧ e.2 ∈ l ∧
      ∀ y ∈ l, y.personId = e.1 → e.2.dist ≤ y.dist) ∧
    (∀ y ∈ l, ∃ e ∈ dedupeLoop [] l, e.1 = y.personId) := by
  have hrec := dedupeLoop_inv l [] [] (by simp) (by simp) (by simp)
  simpa using hrec

lemma dedupe_props (l : List MatchItem) :
    ((dedupeByPerson l).Pairwise (fun x y => x.personId ≠ y.personId)) ∧
    (∀ x ∈ dedupeByPerson l, x ∈ l ∧ ∀ y ∈ l, y.personId = x.personId → x.dist ≤ y.dist) ∧
    (∀ y ∈ l, ∃ x ∈ dedupeByPerson l, x.personId = y.personId) ∧
    ((dedupeByPerson l).Pairwise (fun x y => x.dist ≤ y.dist)) := by
  obtain ⟨k1, k2, k3⟩ := dedupe_core l
  have hperm : (dedupeByPerson l).Perm ((dedupeLoop [] l).map Prod.snd) :=
    sortByDist_perm _
  have hvpw : ((dedupeLoop [] l).map Prod.snd).Pairwise
      (fun x y => x.personId ≠ y.personId) := by
    rw [List.pairwise_map]
    have hkeys : (dedupeLoop [] l).Pairwise (fun e1 e2 => e1.1 ≠ e2.1) :=
      List.pairwise_map.mp k1
    refine List.Pairwise.imp_of_mem ?_ hkeys
    intro e1 e2 he1 he2 hne
    rw [(k2 e1 he1).1, (k2 e2 he2).1]
    exact hne
  refine ⟨?_, ?_, ?_, ?_⟩
  · exact (hperm.pairwise_iff (fun {a b} h hc => h hc.symm)).mpr hvpw
  · intro x hx
    have hxv : x ∈ (dedupeLoop [] l).map Prod.snd := hperm.mem_iff.mp hx
    rcases List.mem_map.mp hxv with ⟨e, he, hex⟩
    obtain ⟨hid, hmem, hmin⟩ := k2 e he
    constructor
    · rw [← hex]
      exact hmem
    · intro y hy hyid
      rw [← hex]
      refine hmin y hy ?_
      rw [hyid, ← hex, hid]
  · intro y hy
    rcases k3 y hy with ⟨e, he, hk⟩
    refine ⟨e.2, hperm.mem_iff.mpr (List.mem_map_of_mem Prod.snd he), ?_⟩
    exact ((k2 e he).1).trans hk
  · exact sortByDist_sorted _

lemma aggregate_matched (frs : List (List MatchItem × List MatchItem)) :
    (aggregate frs).matched = dedupeByPerson (collectImage frs).1 ∨
    (aggregate frs).matched = dedupeByPerson (collectImage frs).2 ∨
    (aggregate frs).matched = [] := by
  simp only [aggregate]
  split_ifs <;> simp

/-- C5: every image verdict's deduplicated identity list has at most one
entry per identity id; each kept entry is an occurrence of minimal distance
among the entries with its id; every input id is represented; and the final
list is ordered ascending by distance. -/
theorem dedupe_unique_min_sorted :
    ∀ l : List MatchItem,
      ((dedupeByPerson l).Pairwise (fun x y => x.personId ≠ y.personId)) ∧
      (∀ x ∈ dedupeByPerson l, x ∈ l ∧
        ∀ y ∈ l, y.personId = x.personId → x.dist ≤ y.dist) ∧
      (∀ y ∈ l, ∃ x ∈ dedupeByPerson l, x.personId = y.personId) ∧
      ((dedupeByPerson l).Pairwise (fun x y => x.dist ≤ y.dist)) ∧
      ∀ frs : List (List MatchItem × List MatchItem),
        (aggregate frs).matched.Pairwise (fun x y => x.personId ≠ y.personId) ∧
        (aggregate frs).matched.Pairwise (fun x y => x.dist ≤ y.dist) := by
  intro l
  obtain ⟨p1, p2, p3, p4⟩ := dedupe_props l
  refine ⟨p1, p2, p3, p4, ?_⟩
  intro frs
  rcases aggregate_matched frs with h | h | h <;> rw [h]
  · exact ⟨(dedupe_props _).1, (dedupe_props _).2.2.2⟩
  · exact ⟨(dedupe_props _).1, (dedupe_props _).2.2.2⟩
  · exact ⟨List.Pairwise.nil, List.Pairwise.nil⟩
